import Mathlib

/-!
Verification of the `learn-citrination` tutorial notebooks.

The repository is a set of Jupyter notebooks.  The pure computations they
contain (chemical-formula parsing, enthalpy of formation, CSV templating,
formula preprocessing, the toy objective function, the acquisition function)
are embedded here as Lean definitions, and the sequential-learning driver
(invoked from `5_sequential_learning_api_tutorial.ipynb` but whose file
`sequential_learning_wrappers.py` is not part of the sources) is modelled
from its documentation.  Strings are modelled as `List Char`, Python floats
as `ℚ` (or `ℝ` for the analytic facts about `erf`).
-/

namespace LearnCitrination

/-! ## `get_stoich` — 2_WorkingWithPIFs.ipynb

Python source:
  def get_stoich(AlCu_formula):
      m = re.match(r"Al([0-9]*)Cu([0-9]*)", AlCu_formula)
      if m is None:
          return (0, 0)
      n_Al = float(m.group(1)) if len(m.group(1)) > 0 else 1
      n_Cu = float(m.group(2)) if len(m.group(2)) > 0 else 1
      return (n_Al, n_Cu)

`re.match` anchors the pattern at the start of the string.  The digit class
`[0-9]*` is greedy, and since the literal that follows it (`C`) is not a
digit, backtracking can never produce a different split: the digit groups
are exactly the maximal digit runs, which is how `matchAlCu` reads them.
-/

/-- Digit-string to number, the (exact) numeric value produced by Python's
`float` on a nonempty digit group. -/
def parseDigits (l : List Char) : ℕ :=
  l.foldl (fun a c => 10 * a + (c.toNat - 48)) 0

/-- The regex match `re.match(r"Al([0-9]*)Cu([0-9]*)", s)`: `none` when the
pattern does not match at the start of `s`, otherwise the two digit groups. -/
def matchAlCu (s : List Char) : Option (List Char × List Char) :=
  match s with
  | 'A' :: 'l' :: r1 =>
    match r1.dropWhile Char.isDigit with
    | 'C' :: 'u' :: r2 => some (r1.takeWhile Char.isDigit, r2.takeWhile Char.isDigit)
    | _ => none
  | _ => none

/-- `get_stoich` from 2_WorkingWithPIFs.ipynb. -/
def get_stoich (s : List Char) : ℕ × ℕ :=
  match matchAlCu s with
  | none => (0, 0)
  | some (g1, g2) =>
    ((if 0 < g1.length then parseDigits g1 else 1),
     (if 0 < g2.length then parseDigits g2 else 1))

/-! ## `enthalpy_of_formation` and the phase-diagram loop — 2_WorkingWithPIFs.ipynb

Python source of the loop body, for each PIF with total `energy` and
chemical formula `s`:
    n_Al, n_Cu = get_stoich(s)
    if n_Al == 0 and n_Cu == 0: continue
    points.append((n_Cu / (n_Cu + n_Al),
                   enthalpy_of_formation(energy, n_Al, n_Cu, energy_Al, energy_Cu)))
starting from `points = [(0.0, 0.0), (1.0, 0.0)]`.
-/

/-- `enthalpy_of_formation` from 2_WorkingWithPIFs.ipynb. -/
def enthalpy_of_formation (energy n_Al n_Cu energy_Al energy_Cu : ℚ) : ℚ :=
  (energy - n_Al * energy_Al - n_Cu * energy_Cu) / (n_Al + n_Cu)

/-- The phase-stability-diagram loop of 2_WorkingWithPIFs.ipynb.  Each PIF is
abstracted to its chemical formula and its `Total Energy` value. -/
def phase_diagram_points (energy_Al energy_Cu : ℚ)
    (pifs : List (List Char × ℚ)) : List (ℚ × ℚ) :=
  ([(0, 0), (1, 0)] : List (ℚ × ℚ)) ++ pifs.filterMap (fun p =>
    let n := get_stoich p.1
    if n.1 = 0 ∧ n.2 = 0 then none
    else some (((n.2 : ℚ) / ((n.2 : ℚ) + (n.1 : ℚ)),
                enthalpy_of_formation p.2 (n.1 : ℚ) (n.2 : ℚ) energy_Al energy_Cu)))

/-! ## `write_csv` — ExperimentalDesign.ipynb

Python source:
  def write_csv(name, rows):
      with open(name, "w") as f:
          f.write("FORMULA, PROPERTY: ZT \n")
          for row in rows:
              f.write("\x7bformula:s\x7d, \x7bZT:s\x7d\n".format(**row))

The file is modelled as the list of characters written to it; each row is
abstracted to its `formula` and `ZT` string fields.
-/

/-- The contents written by `write_csv` (ExperimentalDesign.ipynb): the fixed
header line, then one formatted line per row. -/
def write_csv (rows : List (List Char × List Char)) : List Char :=
  ("FORMULA, PROPERTY: ZT \n").toList ++
    (rows.map (fun r => r.1 ++ (", ").toList ++ r.2 ++ ['\n'])).flatten

/-- Split a character stream at every newline; the trailing fragment after
the last newline is also returned (possibly empty). -/
def splitLinesAux : List Char → List (List Char)
  | [] => [[]]
  | c :: cs =>
    match splitLinesAux cs with
    | [] => [[]]
    | l :: ls => if c = '\n' then [] :: l :: ls else (c :: l) :: ls

/-- The lines of a text file whose content ends in a newline: split at each
newline and drop the empty fragment after the final one. -/
def fileLines (s : List Char) : List (List Char) :=
  (splitLinesAux s).dropLast

/-! ## `toy_func` — 5_sequential_learning_api_tutorial.ipynb

Python source:
  def toy_func(inputs):
      return np.sum(np.square(inputs))
-/

/-- `toy_func` from 5_sequential_learning_api_tutorial.ipynb: the sum of the
squares of the inputs. -/
noncomputable def toy_func (inputs : List ℝ) : ℝ :=
  (inputs.map (fun x => x ^ 2)).sum

/-! ## SMA demo formula preprocessing — the unnamed SMA-demo notebook

Python source of the loop body for row `i`:
    string = "Ti0.5"
    elements = ["Ni", "Cu", "Fe", "Pd"]
    for el in elements:
        if data[el][i] > 0:
            string += el + str(data[el][i]/100.)
    formula[i] = string

The numeric rendering `str(...)` of Python floats is abstracted to an
arbitrary rendering function `render : ℚ → List Char`.
-/

/-- One row of the SMA table, restricted to the four element columns the
formula-preprocessing loop reads. -/
structure SmaRow where
  Ni : ℚ
  Cu : ℚ
  Fe : ℚ
  Pd : ℚ

/-- The element list `["Ni", "Cu", "Fe", "Pd"]`, paired with the row values
the loop reads for them, in the loop's fixed order. -/
def sma_elements (r : SmaRow) : List (List Char × ℚ) :=
  [(("Ni").toList, r.Ni), (("Cu").toList, r.Cu),
   (("Fe").toList, r.Fe), (("Pd").toList, r.Pd)]

/-- The formula string the SMA demo builds for one row: start from `"Ti0.5"`
and append `el + str(value/100)` for each element with positive value. -/
def sma_formula (render : ℚ → List Char) (r : SmaRow) : List Char :=
  (sma_elements r).foldl
    (fun acc p => if 0 < p.2 then acc ++ p.1 ++ render (p.2 / 100) else acc)
    (("Ti0.5").toList)

/-- The fragment one element contributes to the formula. -/
def elementTag (render : ℚ → List Char) (name : List Char) (val : ℚ) : List Char :=
  if 0 < val then name ++ render (val / 100) else []

/-! ## Notebook activity survey

One record per source notebook, stating which of the five activities named
by the spec occur in it.  Each field is read off the notebook's code cells:
 - `importsClientLib`: imports `citrination_client` (directly or via the
   star import of `sequential_learning_wrappers`);
 - `constructsRequestObjects`: builds request/PIF/query objects for the API;
 - `callsRemoteEndpoints`: invokes client methods that hit HTTP endpoints;
 - `pollsForJobCompletion`: waits on job status with sleeps;
 - `plotsResults`: plots with a charting library (`matplotlib`).
-/

structure NotebookActivities where
  importsClientLib : Bool
  constructsRequestObjects : Bool
  callsRemoteEndpoints : Bool
  pollsForJobCompletion : Bool
  plotsResults : Bool

/-- 1_ImportVASP.ipynb: imports `CitrinationClient`, builds PIF objects and
dataset-creation requests, calls `client.data.create_dataset` and
`client.data.upload`; it has no polling loop and no plotting. -/
def importVASP : NotebookActivities := ⟨true, true, true, false, false⟩

/-- 2_WorkingWithPIFs.ipynb: works on local PIF files with `pypif`,
`dfttopif` and plots with `matplotlib`; it never imports the client library
nor touches the network. -/
def workingWithPIFs : NotebookActivities := ⟨false, false, false, false, true⟩

/-- ExperimentalDesign.ipynb: imports `CitrinationClient`, builds
`PifSystemReturningQuery` request objects, calls `client.search.pif_search`
and `client.models.predict`; it has no polling loop and no charting-library
plot (results are shown as a pandas table). -/
def experimentalDesign : NotebookActivities := ⟨true, true, true, false, false⟩

/-- 5_sequential_learning_api_tutorial.ipynb: imports the client through the
star import of the wrappers, builds dataset/view/design requests, calls
upload/build/design endpoints, polls design and retrain jobs with
`wait_time` sleeps, and plots the initial set and SL results. -/
def sequentialLearningTutorial : NotebookActivities := ⟨true, true, true, true, true⟩

/-- The unnamed SMA-demo notebook: its single code computation imports only
`pandas` and rewrites a CSV; every platform interaction is done by hand in
the web UI, so none of the five activities occurs in its code. -/
def smaDemo : NotebookActivities := ⟨false, false, false, false, false⟩

/-- The five source notebooks of the repository. -/
def notebooks : List NotebookActivities :=
  [importVASP, workingWithPIFs, experimentalDesign, sequentialLearningTutorial, smaDemo]

/-- Whether a notebook performs all five activities (a)–(e). -/
def performsAllFive (nb : NotebookActivities) : Bool :=
  nb.importsClientLib && nb.constructsRequestObjects && nb.callsRemoteEndpoints &&
    nb.pollsForJobCompletion && nb.plotsResults

/-! ## The sequential-learning driver

`run_sequential_learning` lives in `sequential_learning_wrappers.py`, which
is not among the sources; only its call site and step-by-step description in
5_sequential_learning_api_tutorial.ipynb are.  The definitions below are
modelled from the spec: a bounded loop that, per iteration, submits a design
job, polls with fixed sleep intervals until status is ready, extracts top
candidates recording predicted results, evaluates them with the local toy
function recording measured results, appends them to the dataset, and
retrains the view (again polling until ready), repeating for
`num_sl_iterations` iterations and returning the accumulated best predicted
and best measured values.
-/

/-- Observable actions of the sequential-learning driver, used to state in
what order the driver performs its steps. -/
inductive SLEvent where
  | submitDesign : SLEvent
  | checkDesignStatus : Bool → SLEvent
  | sleep : ℕ → SLEvent
  | extractCandidates : SLEvent
  | evaluateCandidates : SLEvent
  | addToDataset : SLEvent
  | submitRetrain : SLEvent
  | checkRetrainStatus : Bool → SLEvent
deriving DecidableEq

/-- The external platform, abstracted: for iteration `i`, `designPolls i`
(resp. `retrainPolls i`) is the number of not-ready status polls before the
design (resp. retrain) job becomes ready — the status flag always flips
after finitely many polls — and `candidates i` / `predictedVals i` are the
top candidates the design run returns and their predicted values. -/
structure SLEnv where
  designPolls : ℕ → ℕ
  retrainPolls : ℕ → ℕ
  candidates : ℕ → List (List ℚ)
  predictedVals : ℕ → List ℚ

/-- Modelled from the spec: "poll with fixed sleep intervals until status is
ready" for a design job whose status flag flips after `k` not-ready polls:
each not-ready poll is followed by a sleep of `wait_time`, and the loop ends
at the first ready poll. -/
def designPollTrace (wait_time : ℕ) : ℕ → List SLEvent
  | 0 => [SLEvent.checkDesignStatus true]
  | k + 1 =>
    SLEvent.checkDesignStatus false :: SLEvent.sleep wait_time :: designPollTrace wait_time k

/-- Modelled from the spec: the identical polling loop for a retrain job. -/
def retrainPollTrace (wait_time : ℕ) : ℕ → List SLEvent
  | 0 => [SLEvent.checkRetrainStatus true]
  | k + 1 =>
    SLEvent.checkRetrainStatus false :: SLEvent.sleep wait_time :: retrainPollTrace wait_time k

/-- Best (lowest, the target is `Min`) value of a list of results. -/
def bestOf : List ℚ → ℚ
  | [] => 0
  | x :: xs => xs.foldl min x

/-- Driver state: the dataset grown so far and the accumulated per-iteration
best predicted and best measured values. -/
structure SLState where
  dataset : List (List ℚ × ℚ)
  bestPredVals : List ℚ
  bestMeasuredVals : List ℚ

/-- Modelled from the spec: one iteration of the sequential-learning loop of
`run_sequential_learning` — submit a design job, poll until ready, extract
the top candidates and record the best predicted value, evaluate them with
the local `true_function` and record the best measured value, append the
measured candidates to the dataset, then retrain and poll until ready.  It
returns the updated state and the trace of the steps performed, in order. -/
def run_iteration (true_function : List ℚ → ℚ) (wait_time : ℕ) (env : SLEnv)
    (i : ℕ) (st : SLState) : SLState × List SLEvent :=
  let cands := env.candidates i
  let preds := env.predictedVals i
  let meas := cands.map true_function
  ({ dataset := st.dataset ++ cands.zip meas
     bestPredVals := st.bestPredVals ++ [bestOf preds]
     bestMeasuredVals := st.bestMeasuredVals ++ [bestOf meas] },
   SLEvent.submitDesign :: (designPollTrace wait_time (env.designPolls i) ++
     SLEvent.extractCandidates :: SLEvent.evaluateCandidates :: SLEvent.addToDataset ::
       SLEvent.submitRetrain :: retrainPollTrace wait_time (env.retrainPolls i)))

/-- Modelled from the spec: the remaining `k` iterations of the loop,
starting at iteration index `i` in state `st`. -/
def run_sl_aux (true_function : List ℚ → ℚ) (wait_time : ℕ) (env : SLEnv) :
    ℕ → ℕ → SLState → SLState × List SLEvent
  | 0, _, st => (st, [])
  | k + 1, i, st =>
    let r1 := run_iteration true_function wait_time env i st
    let r2 := run_sl_aux true_function wait_time env k (i + 1) r1.1
    (r2.1, r1.2 ++ r2.2)

/-- Modelled from the spec: `run_sequential_learning` of
`sequential_learning_wrappers.py` — run the loop for `num_sl_iterations`
iterations from an empty accumulator and return the accumulated best
predicted values and best measured values, paired here with the trace of the
steps the driver performed. -/
def run_sequential_learning (true_function : List ℚ → ℚ) (wait_time : ℕ)
    (env : SLEnv) (num_sl_iterations : ℕ) : (List ℚ × List ℚ) × List SLEvent :=
  let r := run_sl_aux true_function wait_time env num_sl_iterations 0 ⟨[], [], []⟩
  ((r.1.bestPredVals, r.1.bestMeasuredVals), r.2)

/-- Number of loop iterations a trace records: one `submitDesign` opens each
iteration. -/
def countIterations (tr : List SLEvent) : ℕ :=
  tr.countP (fun e => e = SLEvent.submitDesign)

/-- The shape claim C2 asserts of a single iteration: the six steps in their
fixed order, with the two polling phases in between. -/
def IterationTrace (wait_time : ℕ) (tr : List SLEvent) : Prop :=
  ∃ k1 k2,
    tr = SLEvent.submitDesign :: (designPollTrace wait_time k1 ++
      SLEvent.extractCandidates :: SLEvent.evaluateCandidates :: SLEvent.addToDataset ::
        SLEvent.submitRetrain :: retrainPollTrace wait_time k2)

/-- The sleep-and-retry discipline claim C6 asserts of adjacent events:
a not-ready status poll is followed by a sleep of the fixed `wait_time`; a
sleep is followed by another status poll (the retry); candidates are
extracted only immediately after a ready design status; and a subsequent
iteration's design submission happens only immediately after a ready retrain
status. -/
def PollStep (wait_time : ℕ) (a b : SLEvent) : Prop :=
  (a = SLEvent.checkDesignStatus false → b = SLEvent.sleep wait_time) ∧
  (a = SLEvent.checkRetrainStatus false → b = SLEvent.sleep wait_time) ∧
  ((∃ d, a = SLEvent.sleep d) →
    ∃ r, b = SLEvent.checkDesignStatus r ∨ b = SLEvent.checkRetrainStatus r) ∧
  (b = SLEvent.extractCandidates → a = SLEvent.checkDesignStatus true) ∧
  (b = SLEvent.submitDesign → a = SLEvent.checkRetrainStatus true)

/-! ## `probability_improvement` — ExperimentalDesign.ipynb

Python source:
  def probability_improvement(mean, sigma, baseline):
      return float(0.5 * (1.0 + erf((mean - baseline) / (sigma * sqrt(2.0)))))

`scipy.special.erf` is the Gauss error function, defined below.
-/

/-- The Gauss error function computed by `scipy.special.erf`. -/
noncomputable def erf (x : ℝ) : ℝ :=
  (2 / Real.sqrt Real.pi) * ∫ t in (0 : ℝ)..x, Real.exp (-t ^ 2)

/-- `probability_improvement` from ExperimentalDesign.ipynb. -/
noncomputable def probability_improvement (mean sigma baseline : ℝ) : ℝ :=
  0.5 * (1.0 + erf ((mean - baseline) / (sigma * Real.sqrt 2.0)))

/-! ## Helper lemmas -/

theorem takeWhile_append_all {p : Char → Bool} {d : List Char} (rest : List Char)
    (hd : ∀ c ∈ d, p c = true) :
    (d ++ rest).takeWhile p = d ++ rest.takeWhile p := by
  induction d with
  | nil => simp
  | cons c cs ih =>
    simp only [List.cons_append, List.takeWhile_cons, hd c (by simp)]
    simp [ih fun c hc => hd c (by simp [hc])]

theorem dropWhile_append_all {p : Char → Bool} {d : List Char} (rest : List Char)
    (hd : ∀ c ∈ d, p c = true) :
    (d ++ rest).dropWhile p = rest.dropWhile p := by
  induction d with
  | nil => simp
  | cons c cs ih =>
    simp only [List.cons_append, List.dropWhile_cons, hd c (by simp)]
    exact ih fun c hc => hd c (by simp [hc])

/-- On a string that decomposes as `Al<digits>Cu<rest>`, the regex matches and
its groups are the digit run and the maximal digit run of `rest`. -/
theorem matchAlCu_of_decomp (d tail : List Char) (hd : ∀ c ∈ d, c.isDigit = true) :
    matchAlCu ('A' :: 'l' :: (d ++ 'C' :: 'u' :: tail)) =
      some (d, tail.takeWhile Char.isDigit) := by
  have h1 : (d ++ 'C' :: 'u' :: tail).dropWhile Char.isDigit = 'C' :: 'u' :: tail := by
    rw [dropWhile_append_all _ hd]; rfl
  have h2 : (d ++ 'C' :: 'u' :: tail).takeWhile Char.isDigit = d := by
    rw [takeWhile_append_all _ hd]; simp [List.takeWhile_cons]
  simp [matchAlCu, h1, h2]

/-- Conversely, a successful regex match exhibits such a decomposition. -/
theorem matchAlCu_decomp {s : List Char} {g1 g2 : List Char}
    (h : matchAlCu s = some (g1, g2)) :
    ∃ tail, s = 'A' :: 'l' :: (g1 ++ 'C' :: 'u' :: tail) ∧ ∀ c ∈ g1, c.isDigit = true := by
  unfold matchAlCu at h
  split at h
  case _ r1 =>
    split at h
    case _ r2 heq =>
      injection h with h'
      have hg1 : r1.takeWhile Char.isDigit = g1 := congrArg Prod.fst h'
      refine ⟨r2, ?_, ?_⟩
      · have := (List.takeWhile_append_dropWhile (p := Char.isDigit) (l := r1)).symm
        rw [heq, hg1] at this
        rw [this]
      · intro c hc
        rw [← hg1] at hc
        exact List.mem_takeWhile_imp hc
    case _ => simp at h
  case _ => simp at h

theorem splitLinesAux_ne_nil (s : List Char) : splitLinesAux s ≠ [] := by
  cases s with
  | nil => simp [splitLinesAux]
  | cons c cs =>
    rw [splitLinesAux]
    rcases h : splitLinesAux cs with _ | ⟨l, ls⟩
    · simp
    · split
      · simp
      · split <;> simp

theorem splitLinesAux_newline (s : List Char) :
    splitLinesAux ('\n' :: s) = [] :: splitLinesAux s := by
  rw [splitLinesAux]
  rcases h : splitLinesAux s with _ | ⟨l, ls⟩
  · exact absurd h (splitLinesAux_ne_nil s)
  · simp

theorem splitLinesAux_append_no_newline (a : List Char) (s : List Char) (ha : '\n' ∉ a)
    {l : List Char} {ls : List (List Char)} (hs : splitLinesAux s = l :: ls) :
    splitLinesAux (a ++ s) = (a ++ l) :: ls := by
  induction a with
  | nil => simpa using hs
  | cons c cs ih =>
    have hc : c ≠ '\n' := fun h => ha (by simp [h])
    have ihr := ih (fun h => ha (by simp [h]))
    rw [List.cons_append, splitLinesAux, ihr]
    simp [hc]

/-- Splitting a newline-terminated line off the front of a stream. -/
theorem splitLinesAux_line (content rest : List Char) (hc : '\n' ∉ content) :
    splitLinesAux (content ++ '\n' :: rest) = content :: splitLinesAux rest := by
  rcases h : splitLinesAux rest with _ | ⟨l, ls⟩
  · exact absurd h (splitLinesAux_ne_nil rest)
  · have h2 : splitLinesAux ('\n' :: rest) = [] :: l :: ls := by
      rw [splitLinesAux_newline, h]
    have := splitLinesAux_append_no_newline content ('\n' :: rest) hc h2
    simpa [h] using this

/-- The data lines written by `write_csv` split back into one line per row,
provided the fields are newline-free. -/
theorem splitLinesAux_body (rows : List (List Char × List Char))
    (h : ∀ r ∈ rows, '\n' ∉ r.1 ∧ '\n' ∉ r.2) :
    splitLinesAux ((rows.map (fun r => r.1 ++ (", ").toList ++ r.2 ++ ['\n'])).flatten) =
      rows.map (fun r => r.1 ++ (", ").toList ++ r.2) ++ [[]] := by
  induction rows with
  | nil => simp [splitLinesAux]
  | cons r rs ih =>
    have hr := h r (by simp)
    have hnotin : '\n' ∉ r.1 ++ (", ").toList ++ r.2 := by
      simp only [List.mem_append]
      rintro ((h1 | h2) | h3)
      · exact hr.1 h1
      · simp at h2
      · exact hr.2 h3
    have harr : (r.1 ++ (", ").toList ++ r.2 ++ ['\n']) ++
        ((rs.map (fun r => r.1 ++ (", ").toList ++ r.2 ++ ['\n'])).flatten) =
        (r.1 ++ (", ").toList ++ r.2) ++ '\n' ::
          ((rs.map (fun r => r.1 ++ (", ").toList ++ r.2 ++ ['\n'])).flatten) := by
      simp [List.append_assoc]
    rw [List.map_cons, List.flatten_cons, harr,
      splitLinesAux_line _ _ hnotin, ih (fun x hx => h x (by simp [hx]))]
    simp

/-! ## Claim theorems -/

/-- C3: `get_stoich` returns `(0, 0)` when the string does not begin with a
match of `Al([0-9]*)Cu([0-9]*)`; otherwise it returns the two digit groups as
numbers, defaulting to `1` for an empty group — so `"AlCu"` yields `(1, 1)`
and `"Al2Cu3"` yields `(2, 3)`. -/
theorem get_stoich_spec :
    (∀ s : List Char,
      (¬ ∃ d tail, s = 'A' :: 'l' :: (d ++ 'C' :: 'u' :: tail) ∧ ∀ c ∈ d, c.isDigit = true) →
      get_stoich s = (0, 0)) ∧
    (∀ d tail, (∀ c ∈ d, c.isDigit = true) →
      get_stoich ('A' :: 'l' :: (d ++ 'C' :: 'u' :: tail)) =
        ((if d = [] then 1 else parseDigits d),
         (if tail.takeWhile Char.isDigit = [] then 1
          else parseDigits (tail.takeWhile Char.isDigit)))) ∧
    get_stoich (("AlCu").toList) = (1, 1) ∧
    get_stoich (("Al2Cu3").toList) = (2, 3) := by
  refine ⟨?_, ?_, by decide, by decide⟩
  · intro s hne
    cases h : matchAlCu s with
    | none => simp [get_stoich, h]
    | some g =>
      obtain ⟨tail, hs, hd⟩ :=
        matchAlCu_decomp (show matchAlCu s = some (g.1, g.2) by rw [h])
      exact absurd ⟨g.1, tail, hs, hd⟩ hne
  · intro d tail hd
    rw [get_stoich, matchAlCu_of_decomp d tail hd]
    have e1 : (if 0 < d.length then parseDigits d else 1) =
        (if d = [] then 1 else parseDigits d) := by
      rcases d with _ | ⟨c, cs⟩ <;> simp
    have e2 : (if 0 < (tail.takeWhile Char.isDigit).length then
          parseDigits (tail.takeWhile Char.isDigit) else 1) =
        (if tail.takeWhile Char.isDigit = [] then 1
         else parseDigits (tail.takeWhile Char.isDigit)) := by
      rcases htw : tail.takeWhile Char.isDigit with _ | ⟨c, cs⟩ <;> simp
    rw [← e1, ← e2]

/-- C3 witness: `"Xy"` has no decomposition, so `get_stoich` gives `(0, 0)`;
`"Al2Cu3"` decomposes with digit groups `2` and `3`. -/
theorem get_stoich_spec_witness :
    get_stoich ['X', 'y'] = (0, 0) ∧
    get_stoich ('A' :: 'l' :: (['2'] ++ 'C' :: 'u' :: ['3'])) = (2, 3) := by
  constructor
  · apply get_stoich_spec.1
    rintro ⟨d, tail, hs, -⟩
    simp at hs
  · exact (get_stoich_spec.2.1 ['2'] ['3'] (by decide)).trans (by decide)

/-- C4: `toy_func` (the sum of the squares of its inputs) is non-negative on
every list of real inputs, and it vanishes exactly when every input is zero
— the global minimum is at the origin. -/
theorem toy_func_props (inputs : List ℝ) :
    0 ≤ toy_func inputs ∧ (toy_func inputs = 0 ↔ ∀ x ∈ inputs, x = 0) := by
  induction inputs with
  | nil => simp [toy_func]
  | cons a l ih =>
    have hs : toy_func (a :: l) = a ^ 2 + toy_func l := by simp [toy_func]
    constructor
    · rw [hs]
      have := sq_nonneg a
      linarith [ih.1]
    · rw [hs]
      constructor
      · intro h
        have h1 : a ^ 2 = 0 := by nlinarith [sq_nonneg a, ih.1]
        have h2 : toy_func l = 0 := by nlinarith [sq_nonneg a, ih.1]
        intro x hx
        rcases List.mem_cons.mp hx with rfl | hx
        · exact (pow_eq_zero_iff (two_ne_zero)).mp h1
        · exact (ih.2.mp h2) x hx
      · intro h
        have ha : a = 0 := h a (by simp)
        have hl : toy_func l = 0 := ih.2.mpr (fun x hx => h x (by simp [hx]))
        simp [ha, hl]

/-- C5 counterexample: it is not the case that every one of the five source
notebooks performs all five activities — the SMA demo notebook, for one,
performs none of them, and only the sequential-learning notebook polls or
performs all five. -/
theorem notebooks_not_all_five :
    ¬ ∀ nb ∈ notebooks, performsAllFive nb = true := by
  decide

/-- C5 amended: every notebook is a linear script over the five activities,
but only the sequential-learning tutorial performs all five of them; the SMA
demo notebook performs none. -/
theorem notebooks_activities_amended :
    performsAllFive sequentialLearningTutorial = true ∧
    performsAllFive smaDemo = false ∧
    (notebooks.countP performsAllFive) = 1 := by
  decide

/-- C7 counterexample: with a formula field containing a newline, the file
written by `write_csv` does not consist of `len(rows) + 1` lines of the
claimed shape (it has three lines instead of two). -/
theorem write_csv_lines_counterexample :
    ¬ (fileLines (write_csv [(['A', '\n', 'B'], ['1'])]) =
        ("FORMULA, PROPERTY: ZT ").toList ::
          [(['A', '\n', 'B'], ['1'])].map (fun r => r.1 ++ (", ").toList ++ r.2) ∧
      (fileLines (write_csv [(['A', '\n', 'B'], ['1'])])).length =
        [(['A', '\n', 'B'], ['1'])].length + 1) := by
  decide

/-- C7 amended: for rows whose `formula` and `ZT` fields contain no newline,
the file written by `write_csv` consists of exactly `len(rows) + 1` lines —
the header `"FORMULA, PROPERTY: ZT "` followed, in order, by one line
`<formula>, <ZT>` per row. -/
theorem write_csv_lines (rows : List (List Char × List Char))
    (h : ∀ r ∈ rows, '\n' ∉ r.1 ∧ '\n' ∉ r.2) :
    fileLines (write_csv rows) =
      ("FORMULA, PROPERTY: ZT ").toList ::
        rows.map (fun r => r.1 ++ (", ").toList ++ r.2) ∧
    (fileLines (write_csv rows)).length = rows.length + 1 := by
  have hhdr : ("FORMULA, PROPERTY: ZT \n").toList =
      ("FORMULA, PROPERTY: ZT ").toList ++ '\n' :: [] := by decide
  have hnothdr : '\n' ∉ ("FORMULA, PROPERTY: ZT ").toList := by decide
  have hsplit : splitLinesAux (write_csv rows) =
      (("FORMULA, PROPERTY: ZT ").toList ::
        rows.map (fun r => r.1 ++ (", ").toList ++ r.2)) ++ [[]] := by
    rw [write_csv, hhdr, List.append_assoc, List.singleton_append,
      splitLinesAux_line _ _ hnothdr, splitLinesAux_body rows h]
    simp
  constructor
  · rw [fileLines, hsplit, List.dropLast_concat]
  · rw [fileLines, hsplit, List.dropLast_concat]
    simp

/-- C7 witness: one newline-free row produces exactly the header line and
one data line. -/
theorem write_csv_lines_witness :
    (∀ r ∈ [((['A'], ['1']) : List Char × List Char)], '\n' ∉ r.1 ∧ '\n' ∉ r.2) ∧
    (fileLines (write_csv [(['A'], ['1'])]) =
      ("FORMULA, PROPERTY: ZT ").toList ::
        [((['A'], ['1']) : List Char × List Char)].map
          (fun r => r.1 ++ (", ").toList ++ r.2) ∧
    (fileLines (write_csv [(['A'], ['1'])])).length = [(['A'], ['1'])].length + 1) :=
  ⟨by decide, write_csv_lines [(['A'], ['1'])] (by decide)⟩

/-- C8: `get_stoich` returns non-negative numbers whose sum vanishes only
when both components do, and the phase-diagram loop skips exactly the
`(0, 0)` results, so every `enthalpy_of_formation` value it computes divides
by a strictly positive quantity `n_Al + n_Cu`. -/
theorem phase_loop_divisor_pos (energy_Al energy_Cu : ℚ) (pifs : List (List Char × ℚ)) :
    (∀ s : List Char,
      (get_stoich s).1 + (get_stoich s).2 = 0 ↔ (get_stoich s).1 = 0 ∧ (get_stoich s).2 = 0) ∧
    (∀ pt ∈ phase_diagram_points energy_Al energy_Cu pifs,
      pt = (0, 0) ∨ pt = (1, 0) ∨
      ∃ p ∈ pifs,
        0 < ((get_stoich p.1).1 : ℚ) + ((get_stoich p.1).2 : ℚ) ∧
        pt = (((get_stoich p.1).2 : ℚ) /
                (((get_stoich p.1).2 : ℚ) + ((get_stoich p.1).1 : ℚ)),
              enthalpy_of_formation p.2 ((get_stoich p.1).1 : ℚ) ((get_stoich p.1).2 : ℚ)
                energy_Al energy_Cu)) := by
  constructor
  · intro s; omega
  · intro pt hpt
    rw [phase_diagram_points, List.mem_append] at hpt
    rcases hpt with hpt | hpt
    · simp only [List.mem_cons, List.not_mem_nil, or_false] at hpt
      rcases hpt with h | h
      · exact Or.inl h
      · exact Or.inr (Or.inl h)
    · rw [List.mem_filterMap] at hpt
      obtain ⟨p, hp, hf⟩ := hpt
      refine Or.inr (Or.inr ⟨p, hp, ?_⟩)
      simp only at hf
      split at hf
      · cases hf
      · case _ hcond =>
        have hpos : 0 < (get_stoich p.1).1 + (get_stoich p.1).2 := by
          rcases Nat.eq_zero_or_pos ((get_stoich p.1).1 + (get_stoich p.1).2) with h0 | h
          · exact absurd ⟨by omega, by omega⟩ hcond
          · exact h
        constructor
        · have : ((0 : ℕ) : ℚ) < (((get_stoich p.1).1 + (get_stoich p.1).2 : ℕ) : ℚ) := by
            exact_mod_cast hpos
          push_cast at this
          linarith
        · exact (Option.some_injective _ hf).symm

/-- C8 witness: the seed point `(0, 0)` of the loop over the empty PIF list
is covered by the first disjunct. -/
theorem phase_loop_divisor_pos_witness :
    ((0 : ℚ), (0 : ℚ)) ∈ phase_diagram_points 0 0 [] ∧
    (((0 : ℚ), (0 : ℚ)) = ((0 : ℚ), (0 : ℚ)) ∨ ((0 : ℚ), (0 : ℚ)) = ((1 : ℚ), (0 : ℚ)) ∨
      ∃ p ∈ ([] : List (List Char × ℚ)),
        0 < ((get_stoich p.1).1 : ℚ) + ((get_stoich p.1).2 : ℚ) ∧
        ((0 : ℚ), (0 : ℚ)) = (((get_stoich p.1).2 : ℚ) /
            (((get_stoich p.1).2 : ℚ) + ((get_stoich p.1).1 : ℚ)),
          enthalpy_of_formation p.2 ((get_stoich p.1).1 : ℚ) ((get_stoich p.1).2 : ℚ) 0 0)) :=
  ⟨by simp [phase_diagram_points],
   (phase_loop_divisor_pos 0 0 []).2 ((0 : ℚ), (0 : ℚ)) (by simp [phase_diagram_points])⟩

/-- C9: the SMA formula for a row is `"Ti0.5"` followed, in the fixed order
Ni, Cu, Fe, Pd, by the element symbol and its value divided by 100 for
exactly the elements with strictly positive value; a row with no positive
value gets exactly `"Ti0.5"`. -/
theorem sma_formula_spec (render : ℚ → List Char) (r : SmaRow) :
    sma_formula render r =
      ("Ti0.5").toList ++ elementTag render (("Ni").toList) r.Ni ++
        elementTag render (("Cu").toList) r.Cu ++ elementTag render (("Fe").toList) r.Fe ++
        elementTag render (("Pd").toList) r.Pd ∧
    (r.Ni ≤ 0 → r.Cu ≤ 0 → r.Fe ≤ 0 → r.Pd ≤ 0 →
      sma_formula render r = ("Ti0.5").toList) := by
  constructor
  · simp only [sma_formula, sma_elements, List.foldl_cons, List.foldl_nil, elementTag]
    split_ifs <;> simp [List.append_assoc]
  · intro h1 h2 h3 h4
    simp only [sma_formula, sma_elements, List.foldl_cons, List.foldl_nil]
    rw [if_neg (not_lt.mpr h1), if_neg (not_lt.mpr h2), if_neg (not_lt.mpr h3),
      if_neg (not_lt.mpr h4)]

/-- C9 witness: the all-zero row receives the bare prefix `"Ti0.5"`. -/
theorem sma_formula_spec_witness :
    (0 : ℚ) ≤ 0 ∧
    sma_formula (fun _ => []) ⟨0, 0, 0, 0⟩ = ("Ti0.5").toList :=
  ⟨le_refl 0, (sma_formula_spec (fun _ => []) ⟨0, 0, 0, 0⟩).2 (le_refl 0) (le_refl 0)
    (le_refl 0) (le_refl 0)⟩

/-! ## Sequential-learning driver lemmas -/

theorem countIterations_append (a b : List SLEvent) :
    countIterations (a ++ b) = countIterations a + countIterations b :=
  List.countP_append _ _ _

theorem countIterations_designPollTrace (w k : ℕ) :
    countIterations (designPollTrace w k) = 0 := by
  induction k with
  | zero => rfl
  | succ k ih => simp [designPollTrace, countIterations] at ih ⊢; exact ih

theorem countIterations_retrainPollTrace (w k : ℕ) :
    countIterations (retrainPollTrace w k) = 0 := by
  induction k with
  | zero => rfl
  | succ k ih => simp [retrainPollTrace, countIterations] at ih ⊢; exact ih

theorem countIterations_run_iteration (f : List ℚ → ℚ) (w : ℕ) (env : SLEnv)
    (i : ℕ) (st : SLState) :
    countIterations (run_iteration f w env i st).2 = 1 := by
  show countIterations (SLEvent.submitDesign :: (designPollTrace w (env.designPolls i) ++ _)) = 1
  rw [countIterations, List.countP_cons]
  have h1 := countIterations_designPollTrace w (env.designPolls i)
  have h2 := countIterations_retrainPollTrace w (env.retrainPolls i)
  rw [countIterations] at h1 h2
  simp [List.countP_append, List.countP_cons, h1, h2]

theorem run_iteration_lengths (f : List ℚ → ℚ) (w : ℕ) (env : SLEnv)
    (i : ℕ) (st : SLState) :
    (run_iteration f w env i st).1.bestPredVals.length = st.bestPredVals.length + 1 ∧
    (run_iteration f w env i st).1.bestMeasuredVals.length =
      st.bestMeasuredVals.length + 1 := by
  simp [run_iteration]

theorem run_sl_aux_spec (f : List ℚ → ℚ) (w : ℕ) (env : SLEnv) :
    ∀ (k i : ℕ) (st : SLState),
      countIterations (run_sl_aux f w env k i st).2 = k ∧
      (run_sl_aux f w env k i st).1.bestPredVals.length = st.bestPredVals.length + k ∧
      (run_sl_aux f w env k i st).1.bestMeasuredVals.length =
        st.bestMeasuredVals.length + k := by
  intro k
  induction k with
  | zero => intro i st; simp [run_sl_aux, countIterations]
  | succ k ih =>
    intro i st
    have h1 := countIterations_run_iteration f w env i st
    have ihr := ih (i + 1) (run_iteration f w env i st).1
    refine ⟨?_, ?_, ?_⟩
    · rw [run_sl_aux]
      simp only [countIterations_append, h1, ihr.1]
      omega
    · rw [run_sl_aux]
      simp only [ihr.2.1, (run_iteration_lengths f w env i st).1]
      omega
    · rw [run_sl_aux]
      simp only [ihr.2.2, (run_iteration_lengths f w env i st).2]
      omega

/-- C1: for every call with `num_sl_iterations = n`, the driver executes its
loop exactly `n` times, terminates (it is a total function), and returns the
accumulated best predicted and best measured values — one of each per
iteration. -/
theorem run_sequential_learning_iteration_count (f : List ℚ → ℚ) (w : ℕ)
    (env : SLEnv) (n : ℕ) :
    countIterations (run_sequential_learning f w env n).2 = n ∧
    (run_sequential_learning f w env n).1.1.length = n ∧
    (run_sequential_learning f w env n).1.2.length = n := by
  have h := run_sl_aux_spec f w env n 0 ⟨[], [], []⟩
  exact ⟨h.1, by simpa using h.2.1, by simpa using h.2.2⟩

theorem run_iteration_iterationTrace (f : List ℚ → ℚ) (w : ℕ) (env : SLEnv)
    (i : ℕ) (st : SLState) :
    IterationTrace w (run_iteration f w env i st).2 :=
  ⟨env.designPolls i, env.retrainPolls i, rfl⟩

theorem run_sl_aux_chunks (f : List ℚ → ℚ) (w : ℕ) (env : SLEnv) :
    ∀ (k i : ℕ) (st : SLState),
      ∃ chunks : List (List SLEvent),
        chunks.length = k ∧
        (run_sl_aux f w env k i st).2 = chunks.flatten ∧
        ∀ c ∈ chunks, IterationTrace w c := by
  intro k
  induction k with
  | zero => intro i st; exact ⟨[], rfl, rfl, by simp⟩
  | succ k ih =>
    intro i st
    obtain ⟨chunks, hlen, heq, hall⟩ := ih (i + 1) (run_iteration f w env i st).1
    refine ⟨(run_iteration f w env i st).2 :: chunks, by simp [hlen], ?_, ?_⟩
    · rw [run_sl_aux, List.flatten_cons, ← heq]
    · intro c hc
      rcases List.mem_cons.mp hc with rfl | hc
      · exact run_iteration_iterationTrace f w env i st
      · exact hall c hc

/-- C2: the driver's trace is the concatenation of `n` iteration chunks,
each performing, in this fixed order: submit a design job, poll it with
fixed sleeps until ready, extract the top candidates (recording predicted
results), evaluate them (recording measured results), append them to the
dataset, and retrain the view polling until ready. -/
theorem run_sequential_learning_step_order (f : List ℚ → ℚ) (w : ℕ)
    (env : SLEnv) (n : ℕ) :
    ∃ chunks : List (List SLEvent),
      chunks.length = n ∧
      (run_sequential_learning f w env n).2 = chunks.flatten ∧
      ∀ c ∈ chunks, IterationTrace w c :=
  run_sl_aux_chunks f w env n 0 ⟨[], [], []⟩

theorem designPollTrace_ne_nil (w k : ℕ) : designPollTrace w k ≠ [] := by
  cases k <;> simp [designPollTrace]

theorem retrainPollTrace_ne_nil (w k : ℕ) : retrainPollTrace w k ≠ [] := by
  cases k <;> simp [retrainPollTrace]

theorem designPollTrace_head (w k : ℕ) :
    ∃ b, (designPollTrace w k).head? = some (SLEvent.checkDesignStatus b) := by
  cases k <;> simp [designPollTrace]

theorem retrainPollTrace_head (w k : ℕ) :
    ∃ b, (retrainPollTrace w k).head? = some (SLEvent.checkRetrainStatus b) := by
  cases k <;> simp [retrainPollTrace]

theorem designPollTrace_getLast (w k : ℕ) :
    (designPollTrace w k).getLast? = some (SLEvent.checkDesignStatus true) := by
  induction k with
  | zero => rfl
  | succ k ih =>
    rw [designPollTrace]
    rcases hk : designPollTrace w k with _ | ⟨e, es⟩
    · exact absurd hk (designPollTrace_ne_nil w k)
    · rw [hk] at ih
      rw [List.getLast?_cons_cons, List.getLast?_cons_cons]
      exact ih

theorem retrainPollTrace_getLast (w k : ℕ) :
    (retrainPollTrace w k).getLast? = some (SLEvent.checkRetrainStatus true) := by
  induction k with
  | zero => rfl
  | succ k ih =>
    rw [retrainPollTrace]
    rcases hk : retrainPollTrace w k with _ | ⟨e, es⟩
    · exact absurd hk (retrainPollTrace_ne_nil w k)
    · rw [hk] at ih
      rw [List.getLast?_cons_cons, List.getLast?_cons_cons]
      exact ih

theorem designPollTrace_chain (w k : ℕ) :
    List.Chain' (PollStep w) (designPollTrace w k) := by
  induction k with
  | zero => exact List.chain'_singleton _
  | succ k ih =>
    rw [designPollTrace]
    refine List.chain'_cons'.mpr ⟨?_, List.chain'_cons'.mpr ⟨?_, ih⟩⟩
    · intro y hy
      simp only [List.head?_cons, Option.mem_def, Option.some.injEq] at hy
      subst hy
      simp [PollStep]
    · intro y hy
      obtain ⟨b, hb⟩ := designPollTrace_head w k
      rw [hb] at hy
      simp only [Option.mem_def, Option.some.injEq] at hy
      subst hy
      simp [PollStep]

theorem retrainPollTrace_chain (w k : ℕ) :
    List.Chain' (PollStep w) (retrainPollTrace w k) := by
  induction k with
  | zero => exact List.chain'_singleton _
  | succ k ih =>
    rw [retrainPollTrace]
    refine List.chain'_cons'.mpr ⟨?_, List.chain'_cons'.mpr ⟨?_, ih⟩⟩
    · intro y hy
      simp only [List.head?_cons, Option.mem_def, Option.some.injEq] at hy
      subst hy
      simp [PollStep]
    · intro y hy
      obtain ⟨b, hb⟩ := retrainPollTrace_head w k
      rw [hb] at hy
      simp only [Option.mem_def, Option.some.injEq] at hy
      subst hy
      simp [PollStep]

theorem designPollTrace_sleep (w k : ℕ) {d : ℕ}
    (h : SLEvent.sleep d ∈ designPollTrace w k) : d = w := by
  induction k with
  | zero => simp [designPollTrace] at h
  | succ k ih =>
    rw [designPollTrace] at h
    rcases List.mem_cons.mp h with h1 | h1
    · cases h1
    · rcases List.mem_cons.mp h1 with h2 | h2
      · injection h2
      · exact ih h2

theorem retrainPollTrace_sleep (w k : ℕ) {d : ℕ}
    (h : SLEvent.sleep d ∈ retrainPollTrace w k) : d = w := by
  induction k with
  | zero => simp [retrainPollTrace] at h
  | succ k ih =>
    rw [retrainPollTrace] at h
    rcases List.mem_cons.mp h with h1 | h1
    · cases h1
    · rcases List.mem_cons.mp h1 with h2 | h2
      · injection h2
      · exact ih h2

theorem run_iteration_trace_eq (f : List ℚ → ℚ) (w : ℕ) (env : SLEnv)
    (i : ℕ) (st : SLState) :
    (run_iteration f w env i st).2 =
      (([SLEvent.submitDesign] ++ designPollTrace w (env.designPolls i) ++
        [SLEvent.extractCandidates, SLEvent.evaluateCandidates, SLEvent.addToDataset,
          SLEvent.submitRetrain]) ++ retrainPollTrace w (env.retrainPolls i)) := by
  simp [run_iteration]

theorem run_iteration_chain (f : List ℚ → ℚ) (w : ℕ) (env : SLEnv)
    (i : ℕ) (st : SLState) :
    List.Chain' (PollStep w) (run_iteration f w env i st).2 := by
  show List.Chain' (PollStep w) (SLEvent.submitDesign :: (designPollTrace w (env.designPolls i) ++
    SLEvent.extractCandidates :: SLEvent.evaluateCandidates :: SLEvent.addToDataset ::
      SLEvent.submitRetrain :: retrainPollTrace w (env.retrainPolls i)))
  refine List.chain'_cons'.mpr ⟨?_, ?_⟩
  · intro y hy
    rw [List.head?_append_of_ne_nil _ (designPollTrace_ne_nil w _)] at hy
    obtain ⟨b, hb⟩ := designPollTrace_head w (env.designPolls i)
    rw [hb] at hy
    simp only [Option.mem_def, Option.some.injEq] at hy
    subst hy
    simp [PollStep]
  · refine List.chain'_append.mpr ⟨designPollTrace_chain w _, ?_, ?_⟩
    · refine List.chain'_cons'.mpr ⟨by simp [PollStep], ?_⟩
      refine List.chain'_cons'.mpr ⟨by simp [PollStep], ?_⟩
      refine List.chain'_cons'.mpr ⟨by simp [PollStep], ?_⟩
      refine List.chain'_cons'.mpr ⟨?_, retrainPollTrace_chain w _⟩
      intro y hy
      obtain ⟨b, hb⟩ := retrainPollTrace_head w (env.retrainPolls i)
      rw [hb] at hy
      simp only [Option.mem_def, Option.some.injEq] at hy
      subst hy
      simp [PollStep]
    · intro x hx y hy
      rw [designPollTrace_getLast w _] at hx
      simp only [Option.mem_def, Option.some.injEq] at hx hy
      subst hx
      rw [List.head?_cons] at hy
      injection hy with hy
      subst hy
      simp [PollStep]

theorem run_iteration_getLast (f : List ℚ → ℚ) (w : ℕ) (env : SLEnv)
    (i : ℕ) (st : SLState) :
    (run_iteration f w env i st).2.getLast? = some (SLEvent.checkRetrainStatus true) := by
  rw [run_iteration_trace_eq,
    List.getLast?_append_of_ne_nil _ (retrainPollTrace_ne_nil w _),
    retrainPollTrace_getLast]

theorem run_iteration_head (f : List ℚ → ℚ) (w : ℕ) (env : SLEnv)
    (i : ℕ) (st : SLState) :
    (run_iteration f w env i st).2.head? = some SLEvent.submitDesign := rfl

theorem run_iteration_sleep (f : List ℚ → ℚ) (w : ℕ) (env : SLEnv)
    (i : ℕ) (st : SLState) {d : ℕ}
    (h : SLEvent.sleep d ∈ (run_iteration f w env i st).2) : d = w := by
  rw [run_iteration_trace_eq] at h
  simp only [List.mem_append, List.mem_cons, List.mem_singleton, List.not_mem_nil,
    or_false] at h
  rcases h with ((h | h) | h) | h
  · cases h
  · exact designPollTrace_sleep w _ h
  · rcases h with h | h | h | h <;> cases h
  · exact retrainPollTrace_sleep w _ h

theorem run_sl_aux_chain (f : List ℚ → ℚ) (w : ℕ) (env : SLEnv) :
    ∀ (k i : ℕ) (st : SLState),
      List.Chain' (PollStep w) (run_sl_aux f w env k i st).2 ∧
      (∀ d, SLEvent.sleep d ∈ (run_sl_aux f w env k i st).2 → d = w) ∧
      ((run_sl_aux f w env k i st).2.head? = some SLEvent.submitDesign ∨
        (run_sl_aux f w env k i st).2 = []) := by
  intro k
  induction k with
  | zero =>
    intro i st
    exact ⟨List.chain'_nil, by simp [run_sl_aux], Or.inr rfl⟩
  | succ k ih =>
    intro i st
    obtain ⟨ihchain, ihsleep, ihhead⟩ := ih (i + 1) (run_iteration f w env i st).1
    have htr : (run_sl_aux f w env (k + 1) i st).2 =
        (run_iteration f w env i st).2 ++
          (run_sl_aux f w env k (i + 1) (run_iteration f w env i st).1).2 := rfl
    refine ⟨?_, ?_, ?_⟩
    · rw [htr]
      refine List.chain'_append.mpr ⟨run_iteration_chain f w env i st, ihchain, ?_⟩
      intro x hx y hy
      rw [run_iteration_getLast] at hx
      simp only [Option.mem_def, Option.some.injEq] at hx
      subst hx
      rcases ihhead with hh | hh
      · rw [hh] at hy
        simp only [Option.mem_def, Option.some.injEq] at hy
        subst hy
        simp [PollStep]
      · rw [hh] at hy
        simp at hy
    · intro d hd
      rw [htr, List.mem_append] at hd
      rcases hd with hd | hd
      · exact run_iteration_sleep f w env i st hd
      · exact ihsleep d hd
    · left
      rw [htr, List.head?_append_of_ne_nil]
      · exact run_iteration_head f w env i st
      · rw [run_iteration_trace_eq]
        simp

/-- C6: along the whole driver trace, every not-ready status poll is
immediately followed by a sleep of the fixed `wait_time`, every sleep is
followed by another status poll, candidates are only extracted immediately
after a ready design status, a later iteration starts only immediately after
a ready retrain status (the `Chain'` part), and every sleep lasts exactly
`wait_time`. -/
theorem run_sequential_learning_poll_discipline (f : List ℚ → ℚ) (w : ℕ)
    (env : SLEnv) (n : ℕ) :
    List.Chain' (PollStep w) (run_sequential_learning f w env n).2 ∧
    ∀ d, SLEvent.sleep d ∈ (run_sequential_learning f w env n).2 → d = w := by
  have h := run_sl_aux_chain f w env n 0 ⟨[], [], []⟩
  exact ⟨h.1, h.2.1⟩

/-- C6 witness: with one not-ready design poll and `wait_time = 10`, a sleep
event occurs in the trace and lasts `10`. -/
theorem run_sequential_learning_poll_discipline_witness :
    SLEvent.sleep 10 ∈
      (run_sequential_learning (fun _ => 0) 10
        ⟨fun _ => 1, fun _ => 0, fun _ => [], fun _ => []⟩ 1).2 ∧
    10 = 10 :=
  ⟨by decide,
   (run_sequential_learning_poll_discipline (fun _ => 0) 10
      ⟨fun _ => 1, fun _ => 0, fun _ => [], fun _ => []⟩ 1).2 10 (by decide)⟩

/-! ## Error-function lemmas for `probability_improvement` -/

theorem gauss_cont : Continuous fun t : ℝ => Real.exp (-t ^ 2) := by
  continuity

theorem gauss_ii (a b : ℝ) :
    IntervalIntegrable (fun t : ℝ => Real.exp (-t ^ 2)) MeasureTheory.volume a b :=
  gauss_cont.intervalIntegrable a b

theorem gauss_integrable : MeasureTheory.Integrable (fun t : ℝ => Real.exp (-t ^ 2)) := by
  have h := integrable_exp_neg_mul_sq (b := (1 : ℝ)) one_pos
  simpa using h

theorem gauss_coeff_pos : 0 < 2 / Real.sqrt Real.pi :=
  div_pos two_pos (Real.sqrt_pos.mpr Real.pi_pos)

theorem gauss_integral_Ioi :
    (∫ t in Set.Ioi (0 : ℝ), Real.exp (-t ^ 2)) = Real.sqrt Real.pi / 2 := by
  have h := integral_gaussian_Ioi (1 : ℝ)
  simpa using h

theorem gauss_integral_le (x : ℝ) (hx : 0 ≤ x) :
    (∫ t in (0 : ℝ)..x, Real.exp (-t ^ 2)) ≤ Real.sqrt Real.pi / 2 := by
  rw [intervalIntegral.integral_of_le hx, ← gauss_integral_Ioi]
  apply MeasureTheory.setIntegral_mono_set
  · exact gauss_integrable.integrableOn
  · filter_upwards with t using (Real.exp_pos _).le
  · exact (Set.Ioc_subset_Ioi_self).eventuallyLE

theorem gauss_integral_nonneg (x : ℝ) (hx : 0 ≤ x) :
    0 ≤ ∫ t in (0 : ℝ)..x, Real.exp (-t ^ 2) :=
  intervalIntegral.integral_nonneg hx (fun _ _ => (Real.exp_pos _).le)

theorem erf_strictMono : StrictMono erf := by
  intro a b hab
  have hadd : (∫ t in (0 : ℝ)..a, Real.exp (-t ^ 2)) + (∫ t in a..b, Real.exp (-t ^ 2)) =
      ∫ t in (0 : ℝ)..b, Real.exp (-t ^ 2) :=
    intervalIntegral.integral_add_adjacent_intervals (gauss_ii 0 a) (gauss_ii a b)
  have hpos : 0 < ∫ t in a..b, Real.exp (-t ^ 2) :=
    intervalIntegral.intervalIntegral_pos_of_pos (gauss_ii a b) (fun x => Real.exp_pos _) hab
  have key : (∫ t in (0 : ℝ)..a, Real.exp (-t ^ 2)) < ∫ t in (0 : ℝ)..b, Real.exp (-t ^ 2) := by
    linarith
  exact (mul_lt_mul_left gauss_coeff_pos).mpr key

theorem erf_zero : erf 0 = 0 := by
  simp [erf]

theorem erf_neg_eq (x : ℝ) : erf (-x) = - erf x := by
  rw [erf, erf]
  have h1 : (∫ t in (0 : ℝ)..(-x), Real.exp (-(-t) ^ 2)) =
      ∫ t in (x : ℝ)..(0 : ℝ), Real.exp (-t ^ 2) := by
    have h := intervalIntegral.integral_comp_neg (a := (0 : ℝ)) (b := -x)
      (fun t => Real.exp (-t ^ 2))
    simpa using h
  have h2 : (∫ t in (0 : ℝ)..(-x), Real.exp (-t ^ 2)) =
      ∫ t in (0 : ℝ)..(-x), Real.exp (-(-t) ^ 2) := by
    congr 1
    ext t
    rw [neg_sq]
  rw [h2, h1, intervalIntegral.integral_symm]
  ring

theorem erf_le_one (x : ℝ) : erf x ≤ 1 := by
  rcases le_or_lt 0 x with hx | hx
  · rw [erf]
    have hb := gauss_integral_le x hx
    have h1 : 2 / Real.sqrt Real.pi * (Real.sqrt Real.pi / 2) = 1 := by
      field_simp
    calc 2 / Real.sqrt Real.pi * ∫ t in (0 : ℝ)..x, Real.exp (-t ^ 2) ≤
        2 / Real.sqrt Real.pi * (Real.sqrt Real.pi / 2) :=
          (mul_le_mul_left gauss_coeff_pos).mpr hb
      _ = 1 := h1
  · have hneg : erf x = - erf (-x) := by rw [erf_neg_eq, neg_neg]
    have h0 : 0 ≤ erf (-x) := by
      rw [erf]
      exact mul_nonneg gauss_coeff_pos.le (gauss_integral_nonneg (-x) (by linarith))
    linarith

theorem neg_one_le_erf (x : ℝ) : -1 ≤ erf x := by
  have h := erf_le_one (-x)
  rw [erf_neg_eq] at h
  linarith

theorem erf_eq_zero_iff (x : ℝ) : erf x = 0 ↔ x = 0 := by
  constructor
  · intro h
    have := erf_strictMono.injective (h.trans erf_zero.symm)
    exact this
  · rintro rfl
    exact erf_zero

/-- C10: for `sigma > 0`, `probability_improvement mean sigma baseline` lies
in `[0, 1]`, equals `0.5` exactly when `mean = baseline`, and is strictly
(hence monotonically) increasing in `mean` for fixed `sigma` and
`baseline`. -/
theorem probability_improvement_props (mean sigma baseline : ℝ) (hsigma : 0 < sigma) :
    probability_improvement mean sigma baseline ∈ Set.Icc (0 : ℝ) 1 ∧
    (probability_improvement mean sigma baseline = 0.5 ↔ mean = baseline) ∧
    (∀ m1 m2 : ℝ, m1 < m2 →
      probability_improvement m1 sigma baseline <
        probability_improvement m2 sigma baseline) := by
  have hden : 0 < sigma * Real.sqrt 2.0 := by
    apply mul_pos hsigma
    rw [show (2.0 : ℝ) = 2 by norm_num]
    exact Real.sqrt_pos.mpr two_pos
  refine ⟨?_, ?_, ?_⟩
  · constructor
    · have := neg_one_le_erf ((mean - baseline) / (sigma * Real.sqrt 2.0))
      rw [probability_improvement]
      nlinarith
    · have := erf_le_one ((mean - baseline) / (sigma * Real.sqrt 2.0))
      rw [probability_improvement]
      nlinarith
  · rw [probability_improvement]
    constructor
    · intro h
      have he : erf ((mean - baseline) / (sigma * Real.sqrt 2.0)) = 0 := by nlinarith
      have hz := (erf_eq_zero_iff _).mp he
      have := (div_eq_zero_iff.mp hz).resolve_right (ne_of_gt hden)
      linarith
    · intro h
      subst h
      simp [erf_zero]
      norm_num
  · intro m1 m2 hm
    rw [probability_improvement, probability_improvement]
    have hz : (m1 - baseline) / (sigma * Real.sqrt 2.0) <
        (m2 - baseline) / (sigma * Real.sqrt 2.0) := by
      apply div_lt_div_of_pos_right ?_ hden
      linarith
    have := erf_strictMono hz
    nlinarith

/-- C10 witness: at `mean = 0`, `sigma = 1`, `baseline = 0` the hypothesis
`0 < sigma` holds and all three conclusions apply. -/
theorem probability_improvement_props_witness :
    (0 : ℝ) < 1 ∧
    (probability_improvement 0 1 0 ∈ Set.Icc (0 : ℝ) 1 ∧
     (probability_improvement 0 1 0 = 0.5 ↔ (0 : ℝ) = 0) ∧
     (∀ m1 m2 : ℝ, m1 < m2 →
       probability_improvement m1 1 0 < probability_improvement m2 1 0)) :=
  ⟨one_pos, probability_improvement_props 0 1 0 one_pos⟩

end LearnCitrination
